import Mathlib

/-!
Verification of `ed25519.go` (gnark-plonky2-verifier)

A shallow embedding of the bit adapters `hexToBits` / `bytesToBits` and of the
two circuit definitions `Sha512Circuit.Define` / `Eddsa25519Circuit.Define`,
followed by the theorems that settle the claims of the specification.

Conventions of the embedding:

* a Go `byte` is a `Nat` (the value of the `uint8`); a byte-typed shift is
  reduced `% 256` explicitly;
* a Go `string` and a `[]byte` are `List Nat` (the sequence of their bytes);
* a slice of `frontend.Variable` is a `List Variable`;
* a Go `panic` is the `Outcome.panic` result, a normal return is `Outcome.ok`.
-/

namespace Ed25519

/-! ## Data model -/

/-- The values a `frontend.Variable` (Go `interface{}`) takes in this program:
the zero value `nil` left by `make`, a Go integer constant, or a handle to a
circuit wire created by the constraint builder. -/
inductive Variable where
  | nil : Variable
  | const (n : Int) : Variable
  | wire (id : Nat) : Variable
  deriving DecidableEq, Repr

/-- The two errors of Go's `encoding/hex`: `InvalidByteError(b)` and `ErrLength`. -/
inductive HexError where
  | InvalidByteError (b : Nat) : HexError
  | ErrLength : HexError
  deriving DecidableEq, Repr

/-- The value carried by a Go panic raised in this file: `panic(err)` of
`hexToBits`, the `panic("bad length")` of `Sha512Circuit.Define`, and the
run-time panic of an index expression `s[i]` with `i ≥ len(s)`. -/
inductive PanicValue where
  | decodeError (e : HexError) : PanicValue
  | message (s : String) : PanicValue
  | indexOutOfRange (i len : Nat) : PanicValue
  deriving DecidableEq, Repr

/-- Result of running a Go function: it returns a value, or it panics. -/
inductive Outcome (α : Type) where
  | ok (a : α) : Outcome α
  | panic (p : PanicValue) : Outcome α
  deriving DecidableEq, Repr

/-- The bytes of an ASCII string literal (`[]byte(s)` for ASCII `s`). -/
def ascii (s : String) : List Nat := s.toList.map Char.toNat

/-! ## `encoding/hex` -/

/-- Modelled from the spec: `fromHexChar` belongs to Go's standard library
`encoding/hex`, which is not under src/. A hex digit `0-9`, `a-f`, `A-F` gives its
value; any other byte is rejected. -/
def fromHexChar (c : Nat) : Option Nat :=
  if 48 ≤ c ∧ c ≤ 57 then some (c - 48)
  else if 97 ≤ c ∧ c ≤ 102 then some (c - 97 + 10)
  else if 65 ≤ c ∧ c ≤ 70 then some (c - 65 + 10)
  else none

/-- Modelled from the spec: `hex.DecodeString` belongs to Go's standard library
`encoding/hex`, which is not under src/. Each pair of hex digits gives one byte,
high nibble first. The library returns the bytes decoded before the error
together with the error: `InvalidByteError` at the first byte that is not a hex
digit, `ErrLength` for an odd number of hex digits. -/
def DecodeString : List Nat → List Nat × Option HexError
  | [] => ([], none)
  | [p] =>
    match fromHexChar p with
    | none => ([], some (HexError.InvalidByteError p))
    | some _ => ([], some HexError.ErrLength)
  | p :: q :: rest =>
    match fromHexChar p with
    | none => ([], some (HexError.InvalidByteError p))
    | some a =>
      match fromHexChar q with
      | none => ([], some (HexError.InvalidByteError q))
      | some b =>
        let r := DecodeString rest
        ((((a <<< 4) % 256) ||| b) :: r.1, r.2)

/-! ## The bit adapters -/

/-- The Go assignment `result[k] = x`: a run-time panic when `k` is out of
range, the updated slice otherwise. -/
def store (result : List Variable) (k : Nat) (x : Variable) : Outcome (List Variable) :=
  if k < result.length then Outcome.ok (result.set k x)
  else Outcome.panic (PanicValue.indexOutOfRange k result.length)

/-- A Go `for` loop over the items of `l` threading the state `s`; a panic in
the body ends the loop. -/
def loop {σ β : Type} (body : σ → β → Outcome σ) : List β → σ → Outcome σ
  | [], s => Outcome.ok s
  | b :: l, s =>
    match body s b with
    | Outcome.ok s1 => loop body l s1
    | Outcome.panic p => Outcome.panic p

/-- Body of the inner loop of `hexToBits` for one `j`:
`if (v & (1 << j)) != 0 { result[i*8+j] = 1 } else { result[i*8+j] = 0 }`. -/
def hexToBits.body (i v : Nat) (result : List Variable) (j : Nat) : Outcome (List Variable) :=
  if (v &&& ((1 <<< j) % 256)) != 0 then store result (i * 8 + j) (Variable.const 1)
  else store result (i * 8 + j) (Variable.const 0)

/-- Source `hexToBits`: decode, panic on a decode error, then for every byte
`b[i]` and `j = 0..7` store at `i*8+j` whether `v & (1 << j)` is non-zero. -/
def hexToBits (h : List Nat) : Outcome (List Variable) :=
  match DecodeString h with
  | (_, some err) => Outcome.panic (PanicValue.decodeError err)
  | (b, none) =>
    let result := List.replicate (b.length * 8) Variable.nil
    loop (fun result iv => loop (hexToBits.body iv.1 iv.2) (List.range 8) result) b.enum result

/-- Body of the inner loop of `bytesToBits` for one `j`:
`if (v & (1 << (7-j))) != 0 { result[i*8+j] = 1 } else { result[i*8+j] = 0 }`. -/
def bytesToBits.body (i v : Nat) (result : List Variable) (j : Nat) : Outcome (List Variable) :=
  if (v &&& ((1 <<< (7 - j)) % 256)) != 0 then store result (i * 8 + j) (Variable.const 1)
  else store result (i * 8 + j) (Variable.const 0)

/-- Source `bytesToBits`: for every byte `arr[i]` and `j = 0..7` store at
`i*8+j` whether `v & (1 << (7-j))` is non-zero. -/
def bytesToBits (arr : List Nat) : Outcome (List Variable) :=
  let result := List.replicate (arr.length * 8) Variable.nil
  loop (fun result iv => loop (bytesToBits.body iv.1 iv.2) (List.range 8) result) arr.enum result

/-! ## The circuits -/

/-- The constraint builder `frontend.API` as far as this file drives it: the
log of the `AssertIsEqual(a, b)` calls received, oldest first. -/
structure API where
  asserts : List (Variable × Variable)
  deriving DecidableEq, Repr

/-- The call `api.AssertIsEqual(a, b)`: one more equality constraint. -/
def API.AssertIsEqual (api : API) (a b : Variable) : API :=
  { asserts := api.asserts ++ [(a, b)] }

/-- Source `Sha512Circuit` (the field `in` is a Lean keyword, hence `in_`). -/
structure Sha512Circuit where
  in_ : List Variable
  out : List Variable
  deriving DecidableEq, Repr

/-- The loop `for i := 0; i < 512; i++ { api.AssertIsEqual(res[i], circuit.out[i]) }`
over the list of the values `i` takes. The index expressions are evaluated
left to right before the call; an index out of range panics and leaves the
builder as it was. -/
def Sha512Circuit.Define.loop (res out : List Variable) : List Nat → API → API × Outcome Unit
  | [], api => (api, Outcome.ok ())
  | i :: is, api =>
    match res[i]? with
    | none => (api, Outcome.panic (PanicValue.indexOutOfRange i res.length))
    | some r =>
      match out[i]? with
      | none => (api, Outcome.panic (PanicValue.indexOutOfRange i out.length))
      | some o => Sha512Circuit.Define.loop res out is (api.AssertIsEqual r o)

/-- Source `Sha512Circuit.Define`. The hash gadget `sha512.Sha512` lives in
another package: it is a parameter, any function from the builder and the input
to a result vector and the builder it leaves. The returned `error` is always
`nil`, so a normal return is `Outcome.ok ()`. -/
def Sha512Circuit.Define (Sha512 : API → List Variable → List Variable × API)
    (circuit : Sha512Circuit) (api : API) : API × Outcome Unit :=
  let r := Sha512 api circuit.in_
  let res := r.1
  if res.length != 512 then (r.2, Outcome.panic (PanicValue.message "bad length"))
  else Sha512Circuit.Define.loop res circuit.out (List.range 512) r.2

/-- Source `Eddsa25519Circuit`. -/
structure Eddsa25519Circuit where
  M : List Variable
  Pk : List Variable
  Sig : List Variable
  deriving DecidableEq, Repr

/-- The calls `Eddsa25519Circuit.Define` makes into the package `edwards_curve`,
with their arguments in the order of the callee's parameters. -/
inductive Call (C : Type) where
  | New : Call C
  | CheckValid (c : C) (a1 a2 a3 : List Variable) : Call C
  deriving DecidableEq, Repr

/-- The trace entry is a call of `edwards_curve.CheckValid`. -/
def Call.isCheckValid {C : Type} : Call C → Bool
  | Call.CheckValid _ _ _ _ => true
  | Call.New => false

/-- Source `Eddsa25519Circuit.Define`. The package `edwards_curve` is not part
of this file: `newResult` is the pair `(c, err)` that `edwards_curve.New`
returns (`none` for a `nil` error), any value; the calls made are recorded in
order. The result is the trace of calls and the returned `error`. -/
def Eddsa25519Circuit.Define {C E : Type} (newResult : C × Option E)
    (circuit : Eddsa25519Circuit) : List (Call C) × Option E :=
  match newResult with
  | (_, some err) => ([Call.New], some err)
  | (c, none) => ([Call.New, Call.CheckValid c circuit.Sig circuit.M circuit.Pk], none)

/-- The composite literal of `mainImpl`,
`Eddsa25519Circuit{M: hexToBits(M), Pk: hexToBits(Pk), Sig: hexToBits(Sig)}`,
as a function of the three hex strings: the calls are made in source order and
the first panic ends the evaluation. -/
def mainImpl.circuit (M Pk Sig : List Nat) : Outcome Eddsa25519Circuit :=
  match hexToBits M with
  | Outcome.panic p => Outcome.panic p
  | Outcome.ok m =>
    match hexToBits Pk with
    | Outcome.panic p => Outcome.panic p
    | Outcome.ok pk =>
      match hexToBits Sig with
      | Outcome.panic p => Outcome.panic p
      | Outcome.ok sig => Outcome.ok { M := m, Pk := pk, Sig := sig }

/-! ## Specification-side descriptions of the bit expansions -/

/-- The constant stored for a bit: `1` when the bit is set, `0` otherwise. -/
def bitVar (b : Bool) : Variable := if b then Variable.const 1 else Variable.const 0

/-- The eight bits of a byte, most significant first. -/
def msbBits (v : Nat) : List Variable :=
  (List.range 8).map (fun j => bitVar (v.testBit (7 - j)))

/-- The eight bits of a byte, least significant first. -/
def lsbBits (v : Nat) : List Variable :=
  (List.range 8).map (fun j => bitVar (v.testBit j))

/-- A byte that is a hex digit: `0-9`, `a-f` or `A-F`. -/
def isHexDigit (c : Nat) : Prop :=
  (48 ≤ c ∧ c ≤ 57) ∨ (97 ≤ c ∧ c ≤ 102) ∨ (65 ≤ c ∧ c ≤ 70)

instance (c : Nat) : Decidable (isHexDigit c) := by unfold isHexDigit; infer_instance

/-- A valid hex string: an even number of characters, each a hex digit. -/
def validHex (h : List Nat) : Prop := h.length % 2 = 0 ∧ ∀ c ∈ h, isHexDigit c

instance (h : List Nat) : Decidable (validHex h) := by unfold validHex; infer_instance

/-- The numeric value of a stored bit: `1` for the constant one, `0` otherwise. -/
def bitValue : Variable → Nat
  | Variable.const 1 => 1
  | _ => 0

/-- Modelled from the spec: `BitsToBytes` is named by the specification only and
is not in the source. Each consecutive group of 8 bits is read
most-significant-bit first as one byte; a trailing group of fewer than 8 bits
gives no byte. -/
def BitsToBytes : List Variable → List Nat
  | b0 :: b1 :: b2 :: b3 :: b4 :: b5 :: b6 :: b7 :: rest =>
    (128 * bitValue b0 + 64 * bitValue b1 + 32 * bitValue b2 + 16 * bitValue b3
      + 8 * bitValue b4 + 4 * bitValue b5 + 2 * bitValue b6 + bitValue b7) :: BitsToBytes rest
  | _ => []

/-- Reversal of every consecutive group of 8 entries. -/
def reverseGroups8 : List Variable → List Variable
  | b0 :: b1 :: b2 :: b3 :: b4 :: b5 :: b6 :: b7 :: rest =>
    b7 :: b6 :: b5 :: b4 :: b3 :: b2 :: b1 :: b0 :: reverseGroups8 rest
  | l => l

/-- A byte whose 8-bit pattern reads the same in both directions. -/
def bitPalindrome (v : Nat) : Prop := ∀ j, j < 8 → v.testBit j = v.testBit (7 - j)

/-- The byte with the 8 bits of `v` in reverse order. -/
def reverseByte (v : Nat) : Nat :=
  (List.range 8).foldl (fun acc j => 2 * acc + (v >>> j) % 2) 0

/-- An equality constraint holds under a valuation of the variables. -/
def satisfied (val : Variable → Int) (c : Variable × Variable) : Prop := val c.1 = val c.2

/-! ## Loop lemmas -/

theorem and_two_pow_bne (v k : Nat) : ((v &&& 2 ^ k) != 0) = v.testBit k := by
  rw [Nat.and_two_pow]
  cases v.testBit k <;> simp

theorem shift_byte (k : Nat) (hk : k < 8) : (1 <<< k) % 256 = 2 ^ k := by
  interval_cases k <;> rfl

theorem hexToBits_body_eq (i v : Nat) (r : List Variable) (j : Nat) (hj : j < 8)
    (hr : i * 8 + 8 ≤ r.length) :
    hexToBits.body i v r j = Outcome.ok (r.set (i * 8 + j) (bitVar (v.testBit j))) := by
  have hlt : i * 8 + j < r.length := by omega
  unfold hexToBits.body store
  rw [shift_byte j hj, and_two_pow_bne]
  cases v.testBit j <;> simp [bitVar, hlt]

theorem bytesToBits_body_eq (i v : Nat) (r : List Variable) (j : Nat) (hj : j < 8)
    (hr : i * 8 + 8 ≤ r.length) :
    bytesToBits.body i v r j = Outcome.ok (r.set (i * 8 + j) (bitVar (v.testBit (7 - j)))) := by
  have hlt : i * 8 + j < r.length := by omega
  unfold bytesToBits.body store
  rw [shift_byte (7 - j) (by omega), and_two_pow_bne]
  cases v.testBit (7 - j) <;> simp [bitVar, hlt]

/-- A loop whose body never panics on states satisfying an invariant is a fold. -/
theorem loop_eq_foldl {σ β : Type} (body : σ → β → Outcome σ) (g : σ → β → σ) (P : σ → Prop)
    (l : List β) (s : σ) (hP : P s)
    (hbody : ∀ s, ∀ b ∈ l, P s → body s b = Outcome.ok (g s b) ∧ P (g s b)) :
    loop body l s = Outcome.ok (l.foldl g s) := by
  induction l generalizing s with
  | nil => rfl
  | cons b l ih =>
    obtain ⟨h1, h2⟩ := hbody s b (List.mem_cons_self b l) hP
    rw [loop, h1]
    exact ih (g s b) h2 (fun s1 b1 hb1 hs1 => hbody s1 b1 (List.mem_cons_of_mem b hb1) hs1)

theorem range8 : List.range 8 = [0, 1, 2, 3, 4, 5, 6, 7] := by decide

/-- Eight stores at `i*8 .. i*8+7` overwrite the eight slots that follow a
prefix of `i*8` entries. -/
theorem set8 (g : Nat → Variable) (i : Nat) (pre post : List Variable)
    (hpre : pre.length = i * 8) :
    (List.range 8).foldl (fun r j => r.set (i * 8 + j) (g j))
        (pre ++ (List.replicate 8 Variable.nil ++ post))
      = pre ++ ((List.range 8).map g ++ post) := by
  rw [range8, ← hpre]
  have h8 : List.replicate 8 Variable.nil = [.nil, .nil, .nil, .nil, .nil, .nil, .nil, .nil] := by
    decide
  rw [h8]
  simp [List.set_append]

theorem hexToBits_inner (i v : Nat) (pre post : List Variable) (hpre : pre.length = i * 8) :
    loop (hexToBits.body i v) (List.range 8) (pre ++ (List.replicate 8 Variable.nil ++ post))
      = Outcome.ok (pre ++ (lsbBits v ++ post)) := by
  have h := set8 (fun j => bitVar (v.testBit j)) i pre post hpre
  rw [lsbBits, ← h]
  apply loop_eq_foldl _ _ (fun r => i * 8 + 8 ≤ r.length)
  · simp [hpre]
  · intro r j hj hr
    exact ⟨hexToBits_body_eq i v r j (by simpa using hj) hr, by simpa using hr⟩

theorem bytesToBits_inner (i v : Nat) (pre post : List Variable) (hpre : pre.length = i * 8) :
    loop (bytesToBits.body i v) (List.range 8) (pre ++ (List.replicate 8 Variable.nil ++ post))
      = Outcome.ok (pre ++ (msbBits v ++ post)) := by
  have h := set8 (fun j => bitVar (v.testBit (7 - j))) i pre post hpre
  rw [msbBits, ← h]
  apply loop_eq_foldl _ _ (fun r => i * 8 + 8 ≤ r.length)
  · simp [hpre]
  · intro r j hj hr
    exact ⟨bytesToBits_body_eq i v r j (by simpa using hj) hr, by simpa using hr⟩

theorem replicate_succ_mul8 (n : Nat) :
    List.replicate ((n + 1) * 8) Variable.nil
      = List.replicate 8 Variable.nil ++ List.replicate (n * 8) Variable.nil := by
  rw [← List.replicate_add]
  congr 1
  omega

/-- Outer loop of `hexToBits`, started at byte index `k` after a prefix of
`k*8` entries already written. -/
theorem hexToBits_outer (l : List Nat) (k : Nat) (pre : List Variable)
    (hpre : pre.length = k * 8) :
    loop (fun result iv => loop (hexToBits.body iv.1 iv.2) (List.range 8) result)
        (l.enumFrom k) (pre ++ List.replicate (l.length * 8) Variable.nil)
      = Outcome.ok (pre ++ l.flatMap lsbBits) := by
  induction l generalizing k pre with
  | nil => simp [loop]
  | cons v l ih =>
    rw [List.enumFrom_cons, loop, List.length_cons, replicate_succ_mul8]
    simp only []
    rw [hexToBits_inner k v pre _ hpre]
    have hlen : (pre ++ lsbBits v).length = (k + 1) * 8 := by
      simp [lsbBits, hpre]; omega
    have := ih (k + 1) (pre ++ lsbBits v) hlen
    simpa [List.append_assoc] using this

/-- Outer loop of `bytesToBits`, started at byte index `k` after a prefix of
`k*8` entries already written. -/
theorem bytesToBits_outer (l : List Nat) (k : Nat) (pre : List Variable)
    (hpre : pre.length = k * 8) :
    loop (fun result iv => loop (bytesToBits.body iv.1 iv.2) (List.range 8) result)
        (l.enumFrom k) (pre ++ List.replicate (l.length * 8) Variable.nil)
      = Outcome.ok (pre ++ l.flatMap msbBits) := by
  induction l generalizing k pre with
  | nil => simp [loop]
  | cons v l ih =>
    rw [List.enumFrom_cons, loop, List.length_cons, replicate_succ_mul8]
    simp only []
    rw [bytesToBits_inner k v pre _ hpre]
    have hlen : (pre ++ msbBits v).length = (k + 1) * 8 := by
      simp [msbBits, hpre]; omega
    have := ih (k + 1) (pre ++ msbBits v) hlen
    simpa [List.append_assoc] using this

/-- The loops of `bytesToBits` never panic and compute the concatenation of the
per-byte most-significant-first expansions. -/
theorem bytesToBits_eq_flatMap (arr : List Nat) :
    bytesToBits arr = Outcome.ok (arr.flatMap msbBits) := by
  have := bytesToBits_outer arr 0 [] (by simp)
  simpa [bytesToBits, List.enum] using this

/-- On decoded bytes `b` the loops of `hexToBits` never panic and compute the
concatenation of the per-byte least-significant-first expansions. -/
theorem hexToBits_eq_flatMap (h b : List Nat) (hd : DecodeString h = (b, none)) :
    hexToBits h = Outcome.ok (b.flatMap lsbBits) := by
  have := hexToBits_outer b 0 [] (by simp)
  simp only [hexToBits, hd]
  simpa [List.enum] using this

theorem hexToBits_of_error (h b : List Nat) (e : HexError) (hd : DecodeString h = (b, some e)) :
    hexToBits h = Outcome.panic (PanicValue.decodeError e) := by
  simp only [hexToBits, hd]

theorem length_msbBits (v : Nat) : (msbBits v).length = 8 := by simp [msbBits]

theorem length_lsbBits (v : Nat) : (lsbBits v).length = 8 := by simp [lsbBits]

/-- Entry `8*i+j` of a concatenation of 8-entry chunks is entry `j` of chunk `i`. -/
theorem getElem?_flatMap8 (f : Nat → List Variable) (hf : ∀ v, (f v).length = 8)
    (l : List Nat) (i j : Nat) (hj : j < 8) :
    (l.flatMap f)[8 * i + j]? = (l[i]?).bind (fun v => (f v)[j]?) := by
  induction l generalizing i with
  | nil => simp
  | cons v l ih =>
    rw [List.flatMap_cons]
    cases i with
    | zero =>
      simp only [Nat.mul_zero, Nat.zero_add]
      rw [List.getElem?_append_left (by rw [hf]; exact hj)]
      simp
    | succ i =>
      rw [List.getElem?_append_right (by rw [hf]; omega)]
      have : 8 * (i + 1) + j - (f v).length = 8 * i + j := by rw [hf]; omega
      rw [this, ih]
      simp

theorem length_flatMap8 (f : Nat → List Variable) (hf : ∀ v, (f v).length = 8) (l : List Nat) :
    (l.flatMap f).length = 8 * l.length := by
  induction l with
  | nil => simp
  | cons v l ih => rw [List.flatMap_cons, List.length_append, ih, hf, List.length_cons]; omega

theorem getElem?_msbBits (v j : Nat) (hj : j < 8) :
    (msbBits v)[j]? = some (bitVar (v.testBit (7 - j))) := by
  simp [msbBits, List.getElem?_map, List.getElem?_range hj]

theorem getElem?_lsbBits (v j : Nat) (hj : j < 8) :
    (lsbBits v)[j]? = some (bitVar (v.testBit j)) := by
  simp [lsbBits, List.getElem?_map, List.getElem?_range hj]

/-! ## Decoding lemmas -/

theorem fromHexChar_eq_none (c : Nat) : fromHexChar c = none ↔ ¬ isHexDigit c := by
  unfold fromHexChar isHexDigit
  split_ifs <;> simp <;> omega

/-- `DecodeString` reports no error exactly on the valid hex strings. -/
theorem DecodeString_ok_iff (h : List Nat) : (DecodeString h).2 = none ↔ validHex h := by
  induction h using DecodeString.induct with
  | case1 => simp [DecodeString, validHex]
  | case2 p hp => simp [DecodeString, hp, validHex]
  | case3 p a hp => simp [DecodeString, hp, validHex]
  | case4 p q rest hp =>
    have := (fromHexChar_eq_none p).1 hp
    simp [DecodeString, hp, validHex, this]
  | case5 p q rest a hp hq =>
    have := (fromHexChar_eq_none q).1 hq
    simp [DecodeString, hp, hq, validHex, this]
  | case6 p q rest a hp b hq ih =>
    have h1 : isHexDigit p := by
      by_contra hc; rw [(fromHexChar_eq_none p).2 hc] at hp; cases hp
    have h2 : isHexDigit q := by
      by_contra hc; rw [(fromHexChar_eq_none q).2 hc] at hq; cases hq
    simp only [DecodeString, hp, hq]
    rw [ih]
    simp only [validHex, List.length_cons, List.mem_cons, forall_eq_or_imp, h1, h2, true_and]
    constructor
    · rintro ⟨h3, h4⟩; exact ⟨by omega, h4⟩
    · rintro ⟨h3, h4⟩; exact ⟨by omega, h4⟩

/-- With no error reported, every two characters gave one byte. -/
theorem DecodeString_length (h : List Nat) (hok : (DecodeString h).2 = none) :
    2 * (DecodeString h).1.length = h.length := by
  induction h using DecodeString.induct with
  | case1 => simp [DecodeString]
  | case2 p hp => simp [DecodeString, hp] at hok
  | case3 p a hp => simp [DecodeString, hp] at hok
  | case4 p q rest hp => simp [DecodeString, hp] at hok
  | case5 p q rest a hp hq => simp [DecodeString, hp, hq] at hok
  | case6 p q rest a hp b hq ih =>
    simp only [DecodeString, hp, hq] at hok ⊢
    have := ih hok
    simp only [List.length_cons]
    omega

theorem hexToBits_valid (h : List Nat) (hv : validHex h) :
    hexToBits h = Outcome.ok ((DecodeString h).1.flatMap lsbBits) :=
  hexToBits_eq_flatMap h _ (Prod.ext rfl ((DecodeString_ok_iff h).2 hv))

theorem hexToBits_invalid (h : List Nat) (hv : ¬ validHex h) :
    ∃ e, (DecodeString h).2 = some e ∧ hexToBits h = Outcome.panic (PanicValue.decodeError e) := by
  cases he : (DecodeString h).2 with
  | none => exact absurd ((DecodeString_ok_iff h).1 he) hv
  | some e => exact ⟨e, rfl, hexToBits_of_error h _ e (Prod.ext rfl he)⟩

/-! ## Bit-order lemmas -/

theorem bitVar_inj (a b : Bool) : bitVar a = bitVar b ↔ a = b := by
  cases a <;> cases b <;> simp [bitVar]

theorem bitValue_bitVar (b : Bool) : bitValue (bitVar b) = b.toNat := by
  cases b <;> rfl

theorem toNat_testBit (v k : Nat) : (v.testBit k).toNat = v / 2 ^ k % 2 := by
  rw [Nat.testBit_to_div_mod]
  rcases Nat.mod_two_eq_zero_or_one (v / 2 ^ k) with h | h <;> simp [h]

theorem msbBits_eq (v : Nat) :
    msbBits v = [bitVar (v.testBit 7), bitVar (v.testBit 6), bitVar (v.testBit 5),
      bitVar (v.testBit 4), bitVar (v.testBit 3), bitVar (v.testBit 2),
      bitVar (v.testBit 1), bitVar (v.testBit 0)] := by
  simp [msbBits, range8]

theorem lsbBits_eq (v : Nat) :
    lsbBits v = [bitVar (v.testBit 0), bitVar (v.testBit 1), bitVar (v.testBit 2),
      bitVar (v.testBit 3), bitVar (v.testBit 4), bitVar (v.testBit 5),
      bitVar (v.testBit 6), bitVar (v.testBit 7)] := by
  simp [lsbBits, range8]

theorem BitsToBytes_msbBits (v : Nat) (hv : v < 256) (rest : List Variable) :
    BitsToBytes (msbBits v ++ rest) = v :: BitsToBytes rest := by
  rw [msbBits_eq]
  simp only [List.cons_append, List.nil_append, BitsToBytes, bitValue_bitVar, toNat_testBit]
  congr 1
  norm_num
  omega

theorem BitsToBytes_flatMap (M : List Nat) (hM : ∀ v ∈ M, v < 256) :
    BitsToBytes (M.flatMap msbBits) = M := by
  induction M with
  | nil => simp [BitsToBytes]
  | cons v M ih =>
    rw [List.flatMap_cons, BitsToBytes_msbBits v (hM v (List.mem_cons_self v M)),
      ih (fun w hw => hM w (List.mem_cons_of_mem v hw))]

theorem reverseGroups8_msbBits (v : Nat) (rest : List Variable) :
    reverseGroups8 (msbBits v ++ rest) = lsbBits v ++ reverseGroups8 rest := by
  rw [msbBits_eq, lsbBits_eq]
  simp [reverseGroups8]

theorem reverseGroups8_flatMap (b : List Nat) :
    reverseGroups8 (b.flatMap msbBits) = b.flatMap lsbBits := by
  induction b with
  | nil => simp [reverseGroups8]
  | cons v b ih => rw [List.flatMap_cons, reverseGroups8_msbBits, ih, List.flatMap_cons]

theorem lsbBits_eq_msbBits_iff (v : Nat) : lsbBits v = msbBits v ↔ bitPalindrome v := by
  rw [msbBits_eq, lsbBits_eq]
  simp only [List.cons.injEq, bitVar_inj, and_true]
  constructor
  · rintro ⟨h0, h1, h2, h3, h4, h5, h6, h7⟩ j hj
    interval_cases j
    · exact h0
    · exact h1
    · exact h2
    · exact h3
    · exact h4
    · exact h5
    · exact h6
    · exact h7
  · intro h
    exact ⟨h 0 (by omega), h 1 (by omega), h 2 (by omega), h 3 (by omega), h 4 (by omega),
      h 5 (by omega), h 6 (by omega), h 7 (by omega)⟩

theorem flatMap_lsb_eq_msb_iff (b : List Nat) :
    b.flatMap lsbBits = b.flatMap msbBits ↔ ∀ v ∈ b, bitPalindrome v := by
  induction b with
  | nil => simp
  | cons v b ih =>
    rw [List.flatMap_cons, List.flatMap_cons, List.forall_mem_cons, ← ih,
      ← lsbBits_eq_msbBits_iff]
    constructor
    · intro h
      exact List.append_inj h (by rw [length_lsbBits, length_msbBits])
    · rintro ⟨h1, h2⟩
      rw [h1, h2]

theorem reverseByte_eq (v : Nat) :
    reverseByte v = 128 * (v / 2 ^ 0 % 2) + 64 * (v / 2 ^ 1 % 2) + 32 * (v / 2 ^ 2 % 2)
      + 16 * (v / 2 ^ 3 % 2) + 8 * (v / 2 ^ 4 % 2) + 4 * (v / 2 ^ 5 % 2)
      + 2 * (v / 2 ^ 6 % 2) + v / 2 ^ 7 % 2 := by
  simp only [reverseByte, range8, List.foldl, Nat.shiftRight_eq_div_pow]
  omega

theorem testBit_reverseByte (v j : Nat) (hj : j < 8) :
    (reverseByte v).testBit (7 - j) = v.testBit j := by
  rw [reverseByte_eq]
  simp only [Nat.testBit_to_div_mod, decide_eq_decide]
  have h0 : v / 2 ^ 0 % 2 < 2 := Nat.mod_lt _ (by norm_num)
  have h1 : v / 2 ^ 1 % 2 < 2 := Nat.mod_lt _ (by norm_num)
  have h2 : v / 2 ^ 2 % 2 < 2 := Nat.mod_lt _ (by norm_num)
  have h3 : v / 2 ^ 3 % 2 < 2 := Nat.mod_lt _ (by norm_num)
  have h4 : v / 2 ^ 4 % 2 < 2 := Nat.mod_lt _ (by norm_num)
  have h5 : v / 2 ^ 5 % 2 < 2 := Nat.mod_lt _ (by norm_num)
  have h6 : v / 2 ^ 6 % 2 < 2 := Nat.mod_lt _ (by norm_num)
  have h7 : v / 2 ^ 7 % 2 < 2 := Nat.mod_lt _ (by norm_num)
  interval_cases j <;>
  · generalize v / 2 ^ 0 % 2 = a0 at *
    generalize v / 2 ^ 1 % 2 = a1 at *
    generalize v / 2 ^ 2 % 2 = a2 at *
    generalize v / 2 ^ 3 % 2 = a3 at *
    generalize v / 2 ^ 4 % 2 = a4 at *
    generalize v / 2 ^ 5 % 2 = a5 at *
    generalize v / 2 ^ 6 % 2 = a6 at *
    generalize v / 2 ^ 7 % 2 = a7 at *
    omega

theorem msbBits_reverseByte (v : Nat) : msbBits (reverseByte v) = lsbBits v := by
  rw [msbBits_eq, lsbBits_eq]
  have h := fun j hj => testBit_reverseByte v j hj
  have h0 := h 0 (by omega)
  have h1 := h 1 (by omega)
  have h2 := h 2 (by omega)
  have h3 := h 3 (by omega)
  have h4 := h 4 (by omega)
  have h5 := h 5 (by omega)
  have h6 := h 6 (by omega)
  have h7 := h 7 (by omega)
  simp only [Nat.sub_zero, Nat.reduceSub] at h0 h1 h2 h3 h4 h5 h6 h7
  rw [h0, h1, h2, h3, h4, h5, h6, h7]

theorem flatMap_msbBits_reverseByte (b : List Nat) :
    (b.map reverseByte).flatMap msbBits = b.flatMap lsbBits := by
  induction b with
  | nil => rfl
  | cons v b ih => simp only [List.map_cons, List.flatMap_cons, msbBits_reverseByte, ih]

/-! ## Lemmas on the constraint loop -/

/-- The loop of `Sha512Circuit.Define` over the indices `k, k+1, .., k+n-1`, all
in range for `res`: it emits the pairs of `res` and `out` position by position
until `out` runs out, and panics exactly in that case. -/
theorem Define_loop_range' (res out : List Variable) (n k : Nat) (api : API)
    (hr : k + n ≤ res.length) (hk : k ≤ out.length) :
    Sha512Circuit.Define.loop res out (List.range' k n) api =
      ({ asserts := api.asserts ++ List.zip ((res.drop k).take n) ((out.drop k).take n) },
        if k + n ≤ out.length then Outcome.ok ()
        else Outcome.panic (PanicValue.indexOutOfRange out.length out.length)) := by
  induction n generalizing k api with
  | zero => simp [Sha512Circuit.Define.loop, hk]
  | succ n ih =>
    have hkr : k < res.length := by omega
    rw [List.range'_succ, Sha512Circuit.Define.loop, List.getElem?_eq_getElem hkr]
    simp only []
    rcases Nat.lt_or_ge k out.length with hko | hko
    · rw [List.getElem?_eq_getElem hko]
      simp only []
      rw [ih (k + 1) _ (by omega) (by omega), List.drop_eq_getElem_cons hkr,
        List.drop_eq_getElem_cons hko]
      simp only [API.AssertIsEqual, List.take_succ_cons, List.zip_cons_cons, List.append_assoc,
        List.singleton_append]
      have : k + 1 + n = k + (n + 1) := by omega
      rw [this]
    · have hke : k = out.length := by omega
      rw [List.getElem?_eq_none hko]
      simp only []
      rw [List.drop_eq_nil_of_le hko]
      have : ¬ (k + (n + 1) ≤ out.length) := by omega
      simp [this, hke]

/-- With a result of 512 entries, `Sha512Circuit.Define` emits the pairs of
`res` and the first 512 entries of `out`, and panics exactly when `out` is
shorter than 512. -/
theorem Define_of_length (Sha512 : API → List Variable → List Variable × API)
    (circuit : Sha512Circuit) (api : API) (hres : (Sha512 api circuit.in_).1.length = 512) :
    Sha512Circuit.Define Sha512 circuit api =
      ({ asserts := (Sha512 api circuit.in_).2.asserts
            ++ List.zip (Sha512 api circuit.in_).1 (circuit.out.take 512) },
        if 512 ≤ circuit.out.length then Outcome.ok ()
        else Outcome.panic
          (PanicValue.indexOutOfRange circuit.out.length circuit.out.length)) := by
  have h := Define_loop_range' (Sha512 api circuit.in_).1 circuit.out 512 0
    (Sha512 api circuit.in_).2 (by omega) (Nat.zero_le _)
  simp only [List.drop_zero, Nat.zero_add] at h
  rw [List.take_of_length_le (Nat.le_of_eq hres)] at h
  simp only [Sha512Circuit.Define, hres, bne_self_eq_false, Bool.false_eq_true, if_false,
    List.range_eq_range']
  exact h

theorem Define_of_bad_length (Sha512 : API → List Variable → List Variable × API)
    (circuit : Sha512Circuit) (api : API) (hres : (Sha512 api circuit.in_).1.length ≠ 512) :
    Sha512Circuit.Define Sha512 circuit api =
      ((Sha512 api circuit.in_).2, Outcome.panic (PanicValue.message "bad length")) := by
  simp [Sha512Circuit.Define, hres]

/-- Pairs of two lists of equal length are all equal under `val` exactly when
the lists have the same values. -/
theorem zip_satisfied_iff (val : Variable → Int) (l1 l2 : List Variable)
    (hlen : l1.length = l2.length) :
    (∀ c ∈ List.zip l1 l2, satisfied val c) ↔ l2.map val = l1.map val := by
  induction l1 generalizing l2 with
  | nil =>
    cases l2 with
    | nil => simp
    | cons b l2 => simp at hlen
  | cons a l1 ih =>
    cases l2 with
    | nil => simp at hlen
    | cons b l2 =>
      have hl : l1.length = l2.length := by simpa using hlen
      simp only [List.zip_cons_cons, List.forall_mem_cons, List.map_cons, List.cons.injEq]
      rw [ih l2 hl]
      constructor
      · rintro ⟨h1, h2⟩; exact ⟨Eq.symm h1, h2⟩
      · rintro ⟨h1, h2⟩; exact ⟨Eq.symm h1, h2⟩

/-! ## Claims about the bit adapters -/

/-- C1: for every byte sequence `arr`, `bytesToBits arr` does not panic and
returns a vector of exactly `8 * len(arr)` entries whose entry `8*i+j`
(`i < len(arr)`, `j < 8`) is the constant 1 when bit `7-j` of `arr[i]` is set and
the constant 0 otherwise. -/
theorem C1_bytesToBits_msb_first (arr : List Nat) :
    ∃ bits, bytesToBits arr = Outcome.ok bits ∧ bits.length = 8 * arr.length ∧
      ∀ (i j : Nat) (hi : i < arr.length), j < 8 →
        bits[8 * i + j]? =
          some (if arr[i].testBit (7 - j) then Variable.const 1 else Variable.const 0) := by
  refine ⟨arr.flatMap msbBits, bytesToBits_eq_flatMap arr,
    length_flatMap8 msbBits length_msbBits arr, ?_⟩
  intro i j hi hj
  rw [getElem?_flatMap8 msbBits length_msbBits arr i j hj, List.getElem?_eq_getElem hi]
  simp only [Option.some_bind, getElem?_msbBits _ _ hj, bitVar]

/-- C2 (as stated, refuted): on the hex string `53756363696e6374204c616273`,
which is valid and decodes to the ASCII bytes of `Succinct Labs`, `hexToBits`
differs from `bytesToBits` of the decoded bytes. -/
theorem C2_counterexample :
    validHex (ascii "53756363696e6374204c616273") ∧
      DecodeString (ascii "53756363696e6374204c616273") = (ascii "Succinct Labs", none) ∧
      hexToBits (ascii "53756363696e6374204c616273") ≠ bytesToBits (ascii "Succinct Labs") := by
  set_option maxRecDepth 100000 in decide

/-- C2 (amended): for every valid hex string `h`, `hexToBits h` equals
`bytesToBits` applied to the decoded bytes after the 8 bits of each byte have
been reversed; in particular on `53756363696e6374204c616273` it equals
`bytesToBits` of the bit-reversed ASCII bytes of `Succinct Labs`. -/
theorem C2_hexToBits_eq_bytesToBits_reversed :
    (∀ h : List Nat, validHex h →
      hexToBits h = bytesToBits ((DecodeString h).1.map reverseByte)) ∧
    hexToBits (ascii "53756363696e6374204c616273")
      = bytesToBits ((ascii "Succinct Labs").map reverseByte) := by
  have key : ∀ h : List Nat, validHex h →
      hexToBits h = bytesToBits ((DecodeString h).1.map reverseByte) := by
    intro h hv
    rw [hexToBits_valid h hv, bytesToBits_eq_flatMap, flatMap_msbBits_reverseByte]
  refine ⟨key, ?_⟩
  have hd : DecodeString (ascii "53756363696e6374204c616273") = (ascii "Succinct Labs", none) := by
    set_option maxRecDepth 100000 in decide
  have := key (ascii "53756363696e6374204c616273") ((DecodeString_ok_iff _).1 (by rw [hd]))
  rw [hd] at this
  exact this

/-- C3: for every byte string `M` (entries below 256), `bytesToBits M` succeeds
and packing its output back into bytes with `BitsToBytes` returns `M`; hence
two byte strings with the same `bytesToBits` output are equal. -/
theorem C3_bytesToBits_round_trip (M : List Nat) (hM : ∀ v ∈ M, v < 256) :
    (∃ bits, bytesToBits M = Outcome.ok bits ∧ BitsToBytes bits = M) ∧
      ∀ M2 : List Nat, (∀ v ∈ M2, v < 256) → bytesToBits M2 = bytesToBits M → M2 = M := by
  refine ⟨⟨M.flatMap msbBits, bytesToBits_eq_flatMap M, BitsToBytes_flatMap M hM⟩, ?_⟩
  intro M2 hM2 heq
  rw [bytesToBits_eq_flatMap, bytesToBits_eq_flatMap] at heq
  have h := congrArg BitsToBytes (Outcome.ok.inj heq)
  rwa [BitsToBytes_flatMap M2 hM2, BitsToBytes_flatMap M hM] at h

/-- Witness of C3 at the ASCII bytes of `Succinct Labs`. -/
theorem C3_bytesToBits_round_trip_witness :
    (∀ v ∈ ascii "Succinct Labs", v < 256) ∧
      (∃ bits, bytesToBits (ascii "Succinct Labs") = Outcome.ok bits
        ∧ BitsToBytes bits = ascii "Succinct Labs") :=
  ⟨by decide, (C3_bytesToBits_round_trip (ascii "Succinct Labs") (by decide)).1⟩

/-- C4: `hexToBits` panics exactly when its input is not a valid hex string; the
panic then carries the decode error reported by `hex.DecodeString` and no bit
vector is returned; on a valid hex string of `2n` characters it returns a
vector of `8n` entries. -/
theorem C4_hexToBits_fails_iff_invalid_hex (h : List Nat) :
    ((∃ p, hexToBits h = Outcome.panic p) ↔ ¬ validHex h) ∧
    (¬ validHex h → ∃ e, (DecodeString h).2 = some e ∧
        hexToBits h = Outcome.panic (PanicValue.decodeError e)) ∧
    (∀ n, validHex h → h.length = 2 * n →
        ∃ bits, hexToBits h = Outcome.ok bits ∧ bits.length = 8 * n) := by
  have hok : validHex h → ∃ bits, hexToBits h = Outcome.ok bits
      ∧ bits.length = 8 * (DecodeString h).1.length :=
    fun hv => ⟨_, hexToBits_valid h hv, length_flatMap8 lsbBits length_lsbBits _⟩
  refine ⟨⟨?_, ?_⟩, hexToBits_invalid h, ?_⟩
  · rintro ⟨p, hp⟩ hv
    obtain ⟨bits, hb, _⟩ := hok hv
    rw [hb] at hp
    cases hp
  · intro hv
    obtain ⟨e, _, he⟩ := hexToBits_invalid h hv
    exact ⟨_, he⟩
  · intro n hv hn
    obtain ⟨bits, hb, hl⟩ := hok hv
    have := DecodeString_length h ((DecodeString_ok_iff h).2 hv)
    exact ⟨bits, hb, by omega⟩

/-- C5 (as stated, refuted): the hex string `00` is valid and decodes to one
byte, neither the 64 of a signature nor the 32 of a public key, and the
decoding step accepts it, as the signature of the circuit literal too. -/
theorem C5_counterexample :
    validHex (ascii "00") ∧ (DecodeString (ascii "00")).1.length = 1 ∧
      hexToBits (ascii "00") = Outcome.ok (List.replicate 8 (Variable.const 0)) ∧
      mainImpl.circuit (ascii "00") (ascii "00") (ascii "00")
        = Outcome.ok { M := List.replicate 8 (Variable.const 0),
                       Pk := List.replicate 8 (Variable.const 0),
                       Sig := List.replicate 8 (Variable.const 0) } := by
  decide

/-- C5 (amended): the decoding step that builds `Eddsa25519Circuit` rejects
malformed hex only and makes no byte-length check. For valid hex strings of any
decoded length it succeeds, each field being the `hexToBits` output of its
string, 8 bits per decoded byte. It panics exactly when one of the three
strings is not valid hex, and the panic then carries the decode error that
`hex.DecodeString` reports for the first malformed string in the order
`M`, `Pk`, `Sig`. -/
theorem C5_decoding_checks_no_length (M Pk Sig : List Nat) :
    (validHex M → validHex Pk → validHex Sig →
      ∃ c, mainImpl.circuit M Pk Sig = Outcome.ok c ∧
        hexToBits M = Outcome.ok c.M ∧ hexToBits Pk = Outcome.ok c.Pk ∧
        hexToBits Sig = Outcome.ok c.Sig ∧
        c.M.length = 8 * (DecodeString M).1.length ∧
        c.Pk.length = 8 * (DecodeString Pk).1.length ∧
        c.Sig.length = 8 * (DecodeString Sig).1.length) ∧
    ((∃ p, mainImpl.circuit M Pk Sig = Outcome.panic p) ↔
      ¬ (validHex M ∧ validHex Pk ∧ validHex Sig)) ∧
    (∀ p, mainImpl.circuit M Pk Sig = Outcome.panic p →
      ∃ e, p = PanicValue.decodeError e ∧
        ((¬ validHex M ∧ (DecodeString M).2 = some e) ∨
         (validHex M ∧ ¬ validHex Pk ∧ (DecodeString Pk).2 = some e) ∨
         (validHex M ∧ validHex Pk ∧ ¬ validHex Sig ∧ (DecodeString Sig).2 = some e))) := by
  have hall : validHex M → validHex Pk → validHex Sig →
      ∃ c, mainImpl.circuit M Pk Sig = Outcome.ok c ∧
        hexToBits M = Outcome.ok c.M ∧ hexToBits Pk = Outcome.ok c.Pk ∧
        hexToBits Sig = Outcome.ok c.Sig ∧
        c.M.length = 8 * (DecodeString M).1.length ∧
        c.Pk.length = 8 * (DecodeString Pk).1.length ∧
        c.Sig.length = 8 * (DecodeString Sig).1.length := by
    intro h1 h2 h3
    refine ⟨{ M := (DecodeString M).1.flatMap lsbBits, Pk := (DecodeString Pk).1.flatMap lsbBits,
              Sig := (DecodeString Sig).1.flatMap lsbBits }, ?_, ?_, ?_, ?_, ?_, ?_, ?_⟩
    · simp only [mainImpl.circuit, hexToBits_valid M h1, hexToBits_valid Pk h2,
        hexToBits_valid Sig h3]
    · exact hexToBits_valid M h1
    · exact hexToBits_valid Pk h2
    · exact hexToBits_valid Sig h3
    · exact length_flatMap8 lsbBits length_lsbBits _
    · exact length_flatMap8 lsbBits length_lsbBits _
    · exact length_flatMap8 lsbBits length_lsbBits _
  have hbad : ¬ (validHex M ∧ validHex Pk ∧ validHex Sig) →
      ∃ e, mainImpl.circuit M Pk Sig = Outcome.panic (PanicValue.decodeError e) ∧
        ((¬ validHex M ∧ (DecodeString M).2 = some e) ∨
         (validHex M ∧ ¬ validHex Pk ∧ (DecodeString Pk).2 = some e) ∨
         (validHex M ∧ validHex Pk ∧ ¬ validHex Sig ∧ (DecodeString Sig).2 = some e)) := by
    intro hn
    by_cases h1 : validHex M
    · by_cases h2 : validHex Pk
      · have h3 : ¬ validHex Sig := fun h3 => hn ⟨h1, h2, h3⟩
        obtain ⟨e, hd, he⟩ := hexToBits_invalid Sig h3
        refine ⟨e, ?_, Or.inr (Or.inr ⟨h1, h2, h3, hd⟩)⟩
        simp only [mainImpl.circuit, hexToBits_valid M h1, hexToBits_valid Pk h2, he]
      · obtain ⟨e, hd, he⟩ := hexToBits_invalid Pk h2
        refine ⟨e, ?_, Or.inr (Or.inl ⟨h1, h2, hd⟩)⟩
        simp only [mainImpl.circuit, hexToBits_valid M h1, he]
    · obtain ⟨e, hd, he⟩ := hexToBits_invalid M h1
      refine ⟨e, ?_, Or.inl ⟨h1, hd⟩⟩
      simp only [mainImpl.circuit, he]
  have hok : (∃ p, mainImpl.circuit M Pk Sig = Outcome.panic p) →
      ¬ (validHex M ∧ validHex Pk ∧ validHex Sig) := by
    rintro ⟨p, hp⟩ ⟨h1, h2, h3⟩
    obtain ⟨c, hc, _⟩ := hall h1 h2 h3
    rw [hc] at hp
    cases hp
  refine ⟨hall, ⟨hok, ?_⟩, ?_⟩
  · intro hn
    obtain ⟨e, he, _⟩ := hbad hn
    exact ⟨PanicValue.decodeError e, he⟩
  · intro p hp
    obtain ⟨e, he, hcase⟩ := hbad (hok ⟨p, hp⟩)
    rw [he] at hp
    exact ⟨e, (Outcome.panic.inj hp).symm, hcase⟩

/-- C9: for every valid hex string `h` with decoded bytes `b`, `hexToBits h`
returns a vector whose entry `8*i+j` (`i < len(b)`, `j < 8`) is the constant 1
when bit `j` of `b[i]` is set and the constant 0 otherwise; it is the output of
`bytesToBits b` with every group of 8 entries reversed; and the two functions
agree on `b` exactly when every byte of `b` is a bit-palindrome. -/
theorem C9_hexToBits_lsb_first (h : List Nat) (hv : validHex h) :
    ∃ bits, hexToBits h = Outcome.ok bits ∧
      (∀ (i j : Nat) (hi : i < (DecodeString h).1.length), j < 8 →
        bits[8 * i + j]? =
          some (if ((DecodeString h).1[i]).testBit j then Variable.const 1
            else Variable.const 0)) ∧
      (∃ msb, bytesToBits (DecodeString h).1 = Outcome.ok msb ∧ bits = reverseGroups8 msb) ∧
      (hexToBits h = bytesToBits (DecodeString h).1 ↔
        ∀ v ∈ (DecodeString h).1, bitPalindrome v) := by
  refine ⟨_, hexToBits_valid h hv, ?_, ?_, ?_⟩
  · intro i j hi hj
    rw [getElem?_flatMap8 lsbBits length_lsbBits _ i j hj, List.getElem?_eq_getElem hi]
    simp only [Option.some_bind, getElem?_lsbBits _ _ hj, bitVar]
  · exact ⟨_, bytesToBits_eq_flatMap _, (reverseGroups8_flatMap _).symm⟩
  · rw [hexToBits_valid h hv, bytesToBits_eq_flatMap, ← flatMap_lsb_eq_msb_iff]
    constructor
    · intro heq; exact Outcome.ok.inj heq
    · intro heq; rw [heq]

/-- Witness of C9 at the hex string `53756363696e6374204c616273`. -/
theorem C9_hexToBits_lsb_first_witness :
    validHex (ascii "53756363696e6374204c616273") ∧
      ∃ bits, hexToBits (ascii "53756363696e6374204c616273") = Outcome.ok bits ∧
        ∃ msb, bytesToBits (DecodeString (ascii "53756363696e6374204c616273")).1 = Outcome.ok msb
          ∧ bits = reverseGroups8 msb := by
  have hv : validHex (ascii "53756363696e6374204c616273") := by decide
  obtain ⟨bits, h1, _, h3, _⟩ := C9_hexToBits_lsb_first _ hv
  exact ⟨hv, bits, h1, h3⟩

/-! ## Claims about the circuit definitions -/

/-- C6: for an arbitrary hash gadget and an `out` vector of at least 512
entries, `Sha512Circuit.Define` panics if and only if the gadget result does
not have 512 entries; whenever it panics the builder is as the gadget left it
(no `AssertIsEqual` was issued) and the panic is `bad length`. -/
theorem C6_Sha512_Define_aborts_iff_bad_length
    (Sha512 : API → List Variable → List Variable × API) (circuit : Sha512Circuit) (api : API)
    (hout : 512 ≤ circuit.out.length) :
    ((∃ p, (Sha512Circuit.Define Sha512 circuit api).2 = Outcome.panic p) ↔
        (Sha512 api circuit.in_).1.length ≠ 512) ∧
      ∀ p, (Sha512Circuit.Define Sha512 circuit api).2 = Outcome.panic p →
        (Sha512Circuit.Define Sha512 circuit api).1 = (Sha512 api circuit.in_).2 ∧
          p = PanicValue.message "bad length" := by
  by_cases hres : (Sha512 api circuit.in_).1.length = 512
  · rw [Define_of_length Sha512 circuit api hres]
    simp [hout, hres]
  · rw [Define_of_bad_length Sha512 circuit api hres]
    refine ⟨⟨fun _ => hres, fun _ => ⟨_, rfl⟩⟩, ?_⟩
    intro p hp
    exact ⟨rfl, (Outcome.panic.inj hp).symm⟩

/-- Witness of C6: a gadget returning an empty result, `out` of 512 entries. -/
theorem C6_Sha512_Define_aborts_iff_bad_length_witness :
    512 ≤ (List.replicate 512 (Variable.const 0)).length ∧
      (Sha512Circuit.Define (fun api _ => ([], api))
        { in_ := [], out := List.replicate 512 (Variable.const 0) } { asserts := [] })
        = ({ asserts := [] }, Outcome.panic (PanicValue.message "bad length")) := by
  have hout : 512 ≤ (List.replicate 512 (Variable.const 0)).length :=
    Nat.le_of_eq (List.length_replicate 512 _).symm
  have h := C6_Sha512_Define_aborts_iff_bad_length (fun api _ => ([], api))
    { in_ := [], out := List.replicate 512 (Variable.const 0) } { asserts := [] } hout
  obtain ⟨p, hp⟩ := h.1.2 (by decide)
  obtain ⟨h1, h2⟩ := h.2 p hp
  exact ⟨hout, Prod.ext h1 (by rw [hp, h2])⟩

/-- C7: when the gadget result has exactly 512 entries and `out` at least 512,
`Sha512Circuit.Define` returns normally after appending to the builder exactly
the 512 pairs `(res[i], out[i])`, `i = 0..511` in increasing order; under any
valuation these constraints all hold if and only if the first 512 entries of
`out` have the values of the digest entries. -/
theorem C7_Sha512_Define_emits_512_equalities
    (Sha512 : API → List Variable → List Variable × API) (circuit : Sha512Circuit) (api : API)
    (hres : (Sha512 api circuit.in_).1.length = 512) (hout : 512 ≤ circuit.out.length) :
    ∃ emitted : List (Variable × Variable),
      Sha512Circuit.Define Sha512 circuit api =
        ({ asserts := (Sha512 api circuit.in_).2.asserts ++ emitted }, Outcome.ok ()) ∧
      emitted.length = 512 ∧
      (∀ i, i < 512 → emitted[i]? =
        some (((Sha512 api circuit.in_).1).getD i Variable.nil,
          circuit.out.getD i Variable.nil)) ∧
      ∀ val : Variable → Int, (∀ c ∈ emitted, satisfied val c) ↔
        (circuit.out.take 512).map val = (Sha512 api circuit.in_).1.map val := by
  have hlen : (Sha512 api circuit.in_).1.length = (circuit.out.take 512).length := by
    rw [List.length_take, hres]; omega
  refine ⟨List.zip (Sha512 api circuit.in_).1 (circuit.out.take 512), ?_, ?_, ?_, ?_⟩
  · rw [Define_of_length Sha512 circuit api hres, if_pos hout]
  · rw [List.length_zip, ← hlen, hres]; rfl
  · intro i hi
    have h1 : i < (Sha512 api circuit.in_).1.length := by omega
    have h2 : i < circuit.out.length := by omega
    rw [List.getElem?_zip_eq_some]
    refine ⟨?_, ?_⟩
    · rw [List.getD_eq_getElem _ _ h1, List.getElem?_eq_getElem h1]
    · rw [List.getD_eq_getElem _ _ h2, List.getElem?_take, if_pos hi, List.getElem?_eq_getElem h2]
  · intro val
    exact zip_satisfied_iff val _ _ hlen

/-- Witness of C7: the gadget returns 512 wires, `out` holds 512 constants. -/
theorem C7_Sha512_Define_emits_512_equalities_witness :
    ∃ emitted : List (Variable × Variable),
      Sha512Circuit.Define (fun api _ => ((List.range 512).map Variable.wire, api))
        { in_ := [], out := List.replicate 512 (Variable.const 0) } { asserts := [] }
        = ({ asserts := [] ++ emitted }, Outcome.ok ()) ∧ emitted.length = 512 := by
  obtain ⟨emitted, h1, h2, _⟩ := C7_Sha512_Define_emits_512_equalities
    (fun api _ => ((List.range 512).map Variable.wire, api))
    { in_ := [], out := List.replicate 512 (Variable.const 0) } { asserts := [] }
    (by simp only [List.length_map, List.length_range])
    (Nat.le_of_eq (List.length_replicate 512 _).symm)
  exact ⟨emitted, h1, h2⟩

/-- C8: `Eddsa25519Circuit.Define` returns an error exactly when
`edwards_curve.New` returned one; it is then that same error and the trace has
no call of `CheckValid`; otherwise it returns no error and the trace has exactly
one call of `CheckValid`, with the arguments `(c, Sig, M, Pk)`. -/
theorem C8_Eddsa_Define_error_iff_New_fails {C E : Type} (newResult : C × Option E)
    (circuit : Eddsa25519Circuit) :
    ((Eddsa25519Circuit.Define newResult circuit).2 ≠ none ↔ newResult.2 ≠ none) ∧
    (∀ err, newResult.2 = some err →
      (Eddsa25519Circuit.Define newResult circuit).2 = some err ∧
        (Eddsa25519Circuit.Define newResult circuit).1.filter Call.isCheckValid = []) ∧
    (newResult.2 = none →
      (Eddsa25519Circuit.Define newResult circuit).2 = none ∧
        (Eddsa25519Circuit.Define newResult circuit).1.filter Call.isCheckValid
          = [Call.CheckValid newResult.1 circuit.Sig circuit.M circuit.Pk]) := by
  obtain ⟨c, e⟩ := newResult
  cases e with
  | none => simp [Eddsa25519Circuit.Define, Call.isCheckValid]
  | some err => simp [Eddsa25519Circuit.Define, Call.isCheckValid]

/-- C10: with a gadget result of exactly 512 entries, `Sha512Circuit.Define`
returns normally if and only if `out` has at least 512 entries; with a shorter
`out` it panics on the index `len(out)` after issuing `len(out)` constraints;
and its effect depends on the first 512 entries of `out` only, so entries at
positions 512 and above are not constrained. -/
theorem C10_Sha512_Define_out_length_unchecked
    (Sha512 : API → List Variable → List Variable × API) (circuit : Sha512Circuit) (api : API)
    (hres : (Sha512 api circuit.in_).1.length = 512) :
    ((Sha512Circuit.Define Sha512 circuit api).2 = Outcome.ok () ↔ 512 ≤ circuit.out.length) ∧
    (circuit.out.length < 512 →
      (Sha512Circuit.Define Sha512 circuit api).2
        = Outcome.panic (PanicValue.indexOutOfRange circuit.out.length circuit.out.length) ∧
      ∃ emitted, (Sha512Circuit.Define Sha512 circuit api).1.asserts
          = (Sha512 api circuit.in_).2.asserts ++ emitted ∧
        emitted.length = circuit.out.length) ∧
    (∀ out2 : List Variable, 512 ≤ circuit.out.length → out2.take 512 = circuit.out.take 512 →
      Sha512Circuit.Define Sha512 { in_ := circuit.in_, out := out2 } api
        = Sha512Circuit.Define Sha512 circuit api) := by
  rw [Define_of_length Sha512 circuit api hres]
  refine ⟨?_, ?_, ?_⟩
  · by_cases h : 512 ≤ circuit.out.length <;> simp [h]
  · intro h
    have hn : ¬ (512 ≤ circuit.out.length) := by omega
    refine ⟨by simp [hn], _, rfl, ?_⟩
    rw [List.length_zip, hres, List.length_take]
    omega
  · intro out2 h512 htake
    have hl : (out2.take 512).length = (circuit.out.take 512).length := by rw [htake]
    rw [List.length_take, List.length_take] at hl
    have h2 : 512 ≤ out2.length := by omega
    rw [Define_of_length Sha512 { in_ := circuit.in_, out := out2 } api hres]
    simp only [htake, h512, h2, if_true]

/-- Witness of C10: the gadget returns 512 wires, `out` holds 3 constants. -/
theorem C10_Sha512_Define_out_length_unchecked_witness :
    (Sha512Circuit.Define (fun api _ => ((List.range 512).map Variable.wire, api))
        { in_ := [], out := List.replicate 3 (Variable.const 0) } { asserts := [] }).2
      = Outcome.panic (PanicValue.indexOutOfRange 3 3) := by
  have h := C10_Sha512_Define_out_length_unchecked
    (fun api _ => ((List.range 512).map Variable.wire, api))
    { in_ := [], out := List.replicate 3 (Variable.const 0) } { asserts := [] }
    (by simp only [List.length_map, List.length_range])
  exact (h.2.1 (by decide)).1

end Ed25519
